import Mathlib

/-!
Verification of the TheanoLM word-lattice decoder
(`theanolm/scoring/latticedecoder.py`).

The decoder is embedded shallowly:

* Log probabilities (`logprob_type`, a floating-point type in the source)
  are modelled as elements of an arbitrary linearly ordered commutative
  ring `K`; concrete witnesses instantiate `K := ℤ`.
* Words occurring in token histories are either vocabulary ids or literal
  out-of-vocabulary strings (spec §3); strings are modelled as `List Char`
  so that all operations reduce in the kernel.
* Python's builtin `hash` over tuples is modelled as an arbitrary function
  `List Word → Int` supplied to the operations that use it.
* The recurrent network state is an opaque handle and the Theano step
  function (an external collaborator, spec §2/§6) is an oracle
  `RecState → Nat → Nat → K × RecState` returning the target log
  probability (with the class-membership log probability already folded
  in, as the source adds the two immediately) and the updated state.
-/

namespace TheanoLM

/-- A word in a token history: either a vocabulary word id, or an
out-of-vocabulary word carried literally (the source stores a Python `str`
in that case). -/
inductive Word where
  | id : Nat → Word
  | oov : List Char → Word
deriving DecidableEq, Repr

/-- Opaque handle standing for the recurrent layer state of one sequence
(`RecurrentState` in the source, a set of Theano tensors). The decoder
never inspects it, it only passes it to the step function. -/
abbrev RecState := Nat

/-- Decoding token (`LatticeDecoder.Token.__init__`): a partial path
through the lattice. `recombination_hash`, `lm_logprob` and
`total_logprob` start unset and are filled in by `recompute_hash` and
`recompute_total`. -/
structure Token (K : Type) where
  history : List Word
  state : RecState
  ac_logprob : K
  lat_lm_logprob : K
  nn_lm_logprob : K
  recombination_hash : Option Int
  lm_logprob : Option K
  total_logprob : Option K
deriving DecidableEq, Repr

variable {K : Type} [LinearOrderedCommRing K]

/-- The `Token` constructor: derived fields start unset. -/
def Token.init (history : List Word) (state : RecState)
    (ac_logprob lat_lm_logprob nn_lm_logprob : K) : Token K :=
  ⟨history, state, ac_logprob, lat_lm_logprob, nn_lm_logprob,
   none, none, none⟩

/-- Source `Token.copy`: history is (deep-)copied, the state is shared by
reference, the score sums are copied, and the derived fields are reset to
unset (the copy goes through the constructor). In a pure model copying a
list is the identity. -/
def Token.copy (t : Token K) : Token K :=
  Token.init t.history t.state t.ac_logprob t.lat_lm_logprob
    t.nn_lm_logprob

/-- Python's slice `l[-k:]`. For `k = 0` this is `l[0:]`, the whole list;
for `k > 0` it is the last `min k (length l)` elements. -/
def pyLastSlice {α : Type} (k : Nat) (l : List α) : List α :=
  if k = 0 then l else l.drop (l.length - k)

/-- The last `n` entries of a list in the plain mathematical sense: for
`n = 0` this is the empty list. Used to state what the spec says
`recompute_hash` does. -/
def takeLast {α : Type} (n : Nat) (l : List α) : List α :=
  l.drop (l.length - n)

/-- Source `Token.recompute_hash`: hashes `history[-order:]` when an order is
given, the whole history otherwise. `hashFn` stands for Python's `hash`
applied to the tuple of the limited history. -/
def Token.recompute_hash (hashFn : List Word → Int)
    (recombination_order : Option Nat) (t : Token K) : Token K :=
  let limited_history :=
    match recombination_order with
    | none => t.history
    | some k => pyLastSlice k t.history
  { t with recombination_hash := some (hashFn limited_history) }

/-- Modelled from the spec: `interpolate_loglinear` lives in
`theanolm.backend` (probfunctions), which is not among the source files.
Spec §4.1 defines log-linear interpolation as
`w * nn_logprob + (1-w) * lattice_logprob`; the call site passes both
weights explicitly, so the model takes two weights. -/
def interpolate_loglinear (logprob1 logprob2 weight1 weight2 : K) : K :=
  weight1 * logprob1 + weight2 * logprob2

/-- Source `Token.recompute_total`: computes the interpolated LM log probability
and from it the total log probability
`ac + lm * lm_scale + wi_penalty * len(history)`.

`interpolate_linear` (used when `linear = true`) is also missing from the
source files and per spec §4.1 involves a log-sum-exp, which has no exact
counterpart in a ring; it is therefore passed in as an opaque collaborator
function of `(nn_logprob, lattice_logprob, weight)`. -/
def Token.recompute_total (interpolate_linear : K → K → K → K)
    (nn_lm_weight lm_scale wi_penalty : K) (linear : Bool)
    (t : Token K) : Token K :=
  let lm_logprob :=
    if linear then
      interpolate_linear t.nn_lm_logprob t.lat_lm_logprob nn_lm_weight
    else
      interpolate_loglinear t.nn_lm_logprob t.lat_lm_logprob
        nn_lm_weight (1 - nn_lm_weight)
  { t with
    lm_logprob := some lm_logprob,
    total_logprob := some (t.ac_logprob + lm_logprob * lm_scale +
      wi_penalty * (t.history.length : K)) }

/-- The total log probability of a token whose `total_logprob` is set.
Tokens taking part in pruning and sorting are always finalized (spec §3
invariant); comparing an unfinalized token is a `TypeError` in the source,
so the default value `0` is never observable along non-crashing runs. -/
def Token.total (t : Token K) : K :=
  t.total_logprob.getD 0

/-- Resolution of the effective LM scale in `decode`
(latticedecoder.py lines 324–329): decoder setting first (`if`), else the
lattice's value (`elif`), else `1.0` (`else`). -/
def resolve_lm_scale (decoder_lm_scale lattice_lm_scale : Option K) : K :=
  match decoder_lm_scale with
  | some v => v
  | none =>
    match lattice_lm_scale with
    | some v => v
    | none => 1

/-- Resolution of the effective word insertion penalty in `decode`
(latticedecoder.py lines 331–336). The source reads

```
if self._wi_penalty is not None:
    wi_penalty = logprob_type(self._wi_penalty)
if lattice.wi_penalty is not None:
    wi_penalty = logprob_type(lattice.wi_penalty)
else:
    wi_penalty = logprob_type(0.0)
```

the second statement is `if`/`else`, not `elif`/`else` (contrast the
`lm_scale` resolution right above it), so the assignment from the
decoder's setting is always overwritten: the result is the lattice's
value when set and `0.0` otherwise, whatever the decoder's setting. -/
def resolve_wi_penalty (decoder_wi_penalty lattice_wi_penalty : Option K) :
    K :=
  match lattice_wi_penalty with
  | some v => v
  | none => 0

/-- Modelled from the spec: resolution order of `wi_penalty` as spec §4.3
states it — the decoder's configured value first, falling back to the
lattice's own value only when the decoder's is unset, and to `0.0` when
both are unset. Stated separately so it can be compared with what the
code does (`resolve_wi_penalty`). -/
def resolve_wi_penalty_spec
    (decoder_wi_penalty lattice_wi_penalty : Option K) : K :=
  match decoder_wi_penalty with
  | some v => v
  | none =>
    match lattice_wi_penalty with
    | some v => v
    | none => 0

/-- A lattice link (`Lattice.Link`): the word label (a literal string; a
word beginning with `!` is a structural marker such as `!NULL`), optional
acoustic and LM scores, and the id of the end node. -/
structure Link (K : Type) where
  word : List Char
  ac_logprob : Option K
  lm_logprob : Option K
  end_node_id : Nat
deriving DecidableEq, Repr

/-- A lattice node: id, optional time stamp, outgoing links. The mutable
`best_logprob` field lives in the decode state (`Nat → Option K`),
indexed by node id, since the lattice object itself is read-only input
apart from that field. -/
structure Node (K : Type) where
  id : Nat
  time : Option K
  out_links : List (Link K)
deriving DecidableEq, Repr

/-- The part of a `Lattice` object that `decode` consumes: initial and
final node ids, optional lattice-level scale and penalty, and the result
of `sorted_nodes()` (a topological ordering supplied by the external
lattice collaborator). -/
structure Lattice (K : Type) where
  initial_node_id : Nat
  final_node_id : Nat
  lm_scale : Option K
  wi_penalty : Option K
  sorted_nodes : List (Node K)
deriving DecidableEq, Repr

/-- The vocabulary interface the decoder consumes: word lookup (`None`
standing for a `KeyError`), shortlist membership, and the three special
word ids resolved at construction. -/
structure Vocabulary where
  word_to_id : List Char → Option Nat
  in_shortlist : Nat → Bool
  sos_id : Nat
  eos_id : Nat
  unk_id : Nat

/-- The decoder's configuration and collaborators (`LatticeDecoder.__init__`):
the decoding options, the vocabulary, and — as oracles — Python's `hash`,
the linear interpolation routine, and the Theano step function.
`oos_logprobs` is the precomputed table when `use_shortlist` was set and
unigram statistics were available, `none` otherwise. -/
structure Decoder (K : Type) where
  nnlm_weight : K
  lm_scale : Option K
  wi_penalty : Option K
  unk_penalty : Option K
  unk_from_lattice : Bool
  linear_interpolation : Bool
  max_tokens_per_node : Option Nat
  beam : Option K
  recombination_order : Option Nat
  oos_logprobs : Option (Nat → K)
  vocab : Vocabulary
  hashFn : List Word → Int
  interpolate_linear : K → K → K → K
  net : RecState → Nat → Nat → K × RecState

/-- Python errors the decoder can raise: failed `assert`, `ValueError`
(from `list.index` or `max()` on an empty sequence), `NameError` (loop
variable unbound when enumerating an empty node list), and the
`InputError` raised by `decode` itself. -/
inductive PyErr where
  | assertionError
  | valueError
  | nameError
  | inputError (msg : String)
deriving DecidableEq, Repr

/-- The message of the `InputError` raised when the node loop finishes
without meeting the final node. -/
def final_node_error : String :=
  "Could not reach the final node of word lattice."

instance {ε α : Type} [DecidableEq ε] [DecidableEq α] :
    DecidableEq (Except ε α) := fun x y =>
  match x, y with
  | .ok a, .ok b =>
    if h : a = b then isTrue (h ▸ rfl)
    else isFalse fun hc => h (by injection hc)
  | .ok _, .error _ => isFalse fun hc => Except.noConfusion hc
  | .error _, .ok _ => isFalse fun hc => Except.noConfusion hc
  | .error e, .error f =>
    if h : e = f then isTrue (h ▸ rfl)
    else isFalse fun hc => h (by injection hc)

/-- Whether a link word is a structural marker: `word.startswith('!')`. -/
def starts_with_marker (w : List Char) : Bool :=
  match w with
  | c :: _ => decide (c = '!')
  | [] => false

/-- Source `_handle_unk_logprob`: out-of-shortlist redistribution when the table
is available, otherwise the override for non-shortlist words when given,
otherwise the network's prediction. -/
def Decoder.handle_unk_logprob {K : Type} [LinearOrderedCommRing K]
    (d : Decoder K) (word : Word) (network_logprob : K)
    (oov_logprob : Option K) : K :=
  let in_shortlist : Bool :=
    match word with
    | .id n => d.vocab.in_shortlist n
    | .oov _ => false
  match d.oos_logprobs with
  | some oos =>
    match word with
    | .id n => network_logprob + oos n
    | .oov _ =>
      match oov_logprob with
      | some v => v
      | none => network_logprob
  | none =>
    match oov_logprob with
    | some v => if in_shortlist then network_logprob else v
    | none => network_logprob

/-- The combined notion of being in the shortlist used by
`_handle_unk_logprob` and `limit_to_shortlist`: a vocabulary id that the
vocabulary reports as a shortlist word (an out-of-vocabulary literal is
never in the shortlist). -/
def Decoder.word_in_shortlist {K : Type} (d : Decoder K) (w : Word) :
    Bool :=
  match w with
  | .id n => d.vocab.in_shortlist n
  | .oov _ => false

/-- Source `limit_to_shortlist` (inner helper of `_append_word`): the word id if
it is a shortlist word id, the `<unk>` id otherwise. -/
def Decoder.limit_to_shortlist {K : Type} (d : Decoder K) (word : Word) :
    Nat :=
  match word with
  | .id n => if d.vocab.in_shortlist n then n else d.vocab.unk_id
  | .oov _ => d.vocab.unk_id

/-- Source `_append_word` restricted to a single token. The source batches all
tokens of one transition into a single Theano call, but each batch row's
log probability and output state depend only on that token's own state
and last word plus the shared target, so the batch is a per-token map.
The class-membership log probability the source adds to the returned
matrix is folded into the oracle `d.net`. A token's history is never
empty here (it always starts with `<s>`); an empty history would be an
`IndexError` in the source, the `getD` default is never observable. -/
def Decoder.append_word_one {K : Type} [LinearOrderedCommRing K]
    (d : Decoder K) (target_word : Word) (oov_logprob : Option K)
    (t : Token K) : Token K :=
  let input_word_id :=
    d.limit_to_shortlist (t.history.getLast?.getD (Word.id d.vocab.unk_id))
  let target_word_id := d.limit_to_shortlist target_word
  let step := d.net t.state input_word_id target_word_id
  { t with
    history := t.history ++ [target_word],
    state := step.2,
    nn_lm_logprob := t.nn_lm_logprob +
      d.handle_unk_logprob target_word step.1 oov_logprob }

/-- Source `_append_word` on a token list. -/
def Decoder.append_word {K : Type} [LinearOrderedCommRing K]
    (d : Decoder K) (tokens : List (Token K)) (target_word : Word)
    (oov_logprob : Option K) : List (Token K) :=
  tokens.map (d.append_word_one target_word oov_logprob)

/-- The per-token part of `_propagate`: copy the token, add the link's
scores when present, append the link's word (unless it is a structural
marker) or `</s>` when there is no link, choosing the override log
probability by the priority `unk_from_lattice`, then `unk_penalty`, then
none; finally recompute the hash and the total. -/
def Decoder.propagate_one {K : Type} [LinearOrderedCommRing K]
    (d : Decoder K) (link : Option (Link K)) (lm_scale wi_penalty : K)
    (t : Token K) : Token K :=
  let t := Token.copy t
  let t :=
    match link with
    | none => d.append_word_one (Word.id d.vocab.eos_id) none t
    | some l =>
      let t :=
        match l.ac_logprob with
        | some v => { t with ac_logprob := t.ac_logprob + v }
        | none => t
      let t :=
        match l.lm_logprob with
        | some v => { t with lat_lm_logprob := t.lat_lm_logprob + v }
        | none => t
      if starts_with_marker l.word then t
      else
        let word : Word :=
          match d.vocab.word_to_id l.word with
          | some i => Word.id i
          | none => Word.oov l.word
        if d.unk_from_lattice then d.append_word_one word l.lm_logprob t
        else
          match d.unk_penalty with
          | some p => d.append_word_one word (some p) t
          | none => d.append_word_one word none t
  (t.recompute_hash d.hashFn d.recombination_order).recompute_total
    d.interpolate_linear d.nnlm_weight lm_scale wi_penalty
    d.linear_interpolation

/-- The `best_logprob` update performed for each new token in
`_propagate`: set when unset, replaced when the new total is strictly
greater. -/
def update_best_logprob {K : Type} [LinearOrderedCommRing K]
    (best : Nat → Option K) (node_id : Nat) (v : K) :
    Nat → Option K :=
  fun i =>
    if i = node_id then
      match best node_id with
      | none => some v
      | some cur => if v > cur then some v else some cur
    else best i

/-- Source `_propagate`: returns the new tokens and the updated `best_logprob`
table. The source runs one loop that finalizes each token and updates the
end node's `best_logprob`; finalizing a token neither reads nor writes
`best_logprob`, so the loop is the per-token map followed by the
`best_logprob` fold, and with no link (end of sentence) no node's
`best_logprob` is touched. -/
def Decoder.propagate {K : Type} [LinearOrderedCommRing K]
    (d : Decoder K) (tokens : List (Token K)) (link : Option (Link K))
    (lm_scale wi_penalty : K) (best : Nat → Option K) :
    List (Token K) × (Nat → Option K) :=
  let new_tokens := tokens.map (d.propagate_one link lm_scale wi_penalty)
  (new_tokens,
   match link with
   | none => best
   | some l =>
     new_tokens.foldl
       (fun b t => update_best_logprob b l.end_node_id (Token.total t))
       best)

/-- The effect on one existing dict entry of Python's
`new_tokens[key] = token` guarded by
`token.total_logprob > new_tokens[key].total_logprob`: the matching
key's value is replaced when the new token scores strictly higher. -/
def replace_entry {K : Type} [LinearOrderedCommRing K] (t : Token K)
    (p : Option Int × Token K) : Option Int × Token K :=
  if p.1 = t.recombination_hash then
    (if Token.total p.2 < Token.total t then (p.1, t) else p)
  else p

/-- One step of the recombination dict of `_prune`, on an
insertion-ordered association list (keys are the recombination hashes,
possibly unset): when the key is present the existing entry is updated
in place via `replace_entry`, otherwise a new entry is appended at the
end of the insertion order. -/
def upsert_token {K : Type} [LinearOrderedCommRing K]
    (m : List (Option Int × Token K)) (t : Token K) :
    List (Option Int × Token K) :=
  if m.any (fun p => p.1 == t.recombination_hash) then
    m.map (replace_entry t)
  else m ++ [(t.recombination_hash, t)]

/-- The recombination pass of `_prune`: build the dict, take its values
in key-insertion order. -/
def recombine {K : Type} [LinearOrderedCommRing K]
    (ts : List (Token K)) : List (Token K) :=
  (ts.foldl upsert_token []).map Prod.snd

/-- Invariant of the recombination dict: keys are pairwise distinct and
each entry's key is its token's recombination hash. -/
def good_map {K : Type} [LinearOrderedCommRing K]
    (m : List (Option Int × Token K)) : Prop :=
  m.Pairwise (fun p q => p.1 ≠ q.1) ∧
  ∀ p ∈ m, p.1 = p.2.recombination_hash

/-- The ordering used by Python's
`sorted(..., key=lambda token: token.total_logprob, reverse=True)`:
`a` may stay before `b` when `a`'s total log probability is at least
`b`'s. -/
def tokenGE {K : Type} [LinearOrderedCommRing K] (a b : Token K) :
    Prop :=
  Token.total b ≤ Token.total a

instance {K : Type} [LinearOrderedCommRing K] :
    DecidableRel (tokenGE (K := K)) :=
  fun _ _ => inferInstanceAs (Decidable (_ ≤ _))

instance {K : Type} [LinearOrderedCommRing K] :
    IsTotal (Token K) tokenGE :=
  ⟨fun a b => (le_total (Token.total b) (Token.total a)).imp id id⟩

instance {K : Type} [LinearOrderedCommRing K] :
    IsTrans (Token K) tokenGE :=
  ⟨fun _ _ _ hab hbc => le_trans hbc hab⟩

/-- Python's `sorted(..., key=lambda token: token.total_logprob,
reverse=True)`: stable sort by descending total log probability. -/
def sort_tokens_desc {K : Type} [LinearOrderedCommRing K]
    (ts : List (Token K)) : List (Token K) :=
  ts.insertionSort tokenGE

/-- The beam-pruning while loop of `_prune`: walking from the tail, drop
tokens whose total log probability is at most the threshold, but stop at
index 0 — the loop condition is `token_index >= 1`, so the head always
survives. Equivalently: keep the head, and drop the longest suffix of the
tail lying at or below the threshold. -/
def beam_prune {K : Type} [LinearOrderedCommRing K]
    (threshold : K) (ts : List (Token K)) : List (Token K) :=
  match ts with
  | [] => []
  | t0 :: rest =>
    t0 ::
      (rest.reverse.dropWhile fun t =>
        decide (Token.total t ≤ threshold)).reverse

/-- The hard cap `new_tokens[self._max_tokens_per_node:] = []`. -/
def truncate_tokens {K : Type}
    (max_tokens : Option Nat) (ts : List (Token K)) : List (Token K) :=
  match max_tokens with
  | none => ts
  | some m => ts.take m

/-- The slice of the sorted node list from `time_begin` on, over which
`_prune` maximizes `best_logprob`: when the node has no time stamp,
`time_begin` is the node's own position (`list.index`, a `ValueError`
when absent); otherwise the first position whose node carries a time at
or after this node's time — when no node qualifies the `for`/`enumerate`
loop leaves `time_begin` at the last index, and with an empty node list
the variable is never bound (`NameError`). -/
def prune_time_tail {K : Type} [LinearOrderedCommRing K]
    (sorted_nodes : List (Node K)) (node : Node K) :
    Except PyErr (List (Node K)) :=
  match node.time with
  | none =>
    match sorted_nodes.findIdx? (fun n => n.id == node.id) with
    | some i => .ok (sorted_nodes.drop i)
    | none => .error .valueError
  | some time =>
    match sorted_nodes.findIdx? (fun n =>
        match n.time with
        | some u => decide (time ≤ u)
        | none => false) with
    | some i => .ok (sorted_nodes.drop i)
    | none =>
      if sorted_nodes.isEmpty then .error .nameError
      else .ok (sorted_nodes.drop (sorted_nodes.length - 1))

/-- Source `_prune`: recombine, sort descending, beam-prune against the best
log probability at the same or a later time (when a beam is configured;
`max()` of an empty sequence is a `ValueError`), and enforce the hard
cap on the number of tokens. -/
def Decoder.prune {K : Type} [LinearOrderedCommRing K]
    (d : Decoder K) (sorted_nodes : List (Node K))
    (best : Nat → Option K) (node : Node K) (ts : List (Token K)) :
    Except PyErr (List (Token K)) :=
  let new_tokens := sort_tokens_desc (recombine ts)
  match d.beam with
  | none => .ok (truncate_tokens d.max_tokens_per_node new_tokens)
  | some beam =>
    match prune_time_tail sorted_nodes node with
    | .error e => .error e
    | .ok tail =>
      match (tail.filterMap fun n => best n.id).max? with
      | none => .error .valueError
      | some best_logprob =>
        .ok (truncate_tokens d.max_tokens_per_node
          (beam_prune (best_logprob - beam) new_tokens))

/-- The node loop of `decode` (lines 349–381): for each node in
topological order, assert it holds tokens, prune, assert again; at the
final node propagate to end of sentence and return the tokens sorted by
descending total log probability — the only successful return; otherwise
propagate through every outgoing link, extending the destination tables
and the `best_logprob` table; a completed loop raises the `InputError`. -/
def Decoder.decode_loop {K : Type} [LinearOrderedCommRing K]
    (d : Decoder K) (lattice : Lattice K) (lm_scale wi_penalty : K) :
    List (Node K) → (Nat → List (Token K)) → (Nat → Option K) →
    Except PyErr (List (Token K))
  | [], _, _ => .error (.inputError final_node_error)
  | node :: rest, tokens, best =>
    let node_tokens := tokens node.id
    if node_tokens.isEmpty then .error .assertionError
    else
      match d.prune lattice.sorted_nodes best node node_tokens with
      | .error e => .error e
      | .ok pruned =>
        if pruned.isEmpty then .error .assertionError
        else
          let tokens := fun i => if i = node.id then pruned else tokens i
          if node.id = lattice.final_node_id then
            .ok (sort_tokens_desc
              (d.propagate pruned none lm_scale wi_penalty best).1)
          else
            let acc := node.out_links.foldl
              (fun (acc : (Nat → List (Token K)) × (Nat → Option K)) l =>
                let r := d.propagate pruned (some l) lm_scale wi_penalty
                  acc.2
                (fun i => if i = l.end_node_id then acc.1 i ++ r.1
                  else acc.1 i,
                 r.2))
              (tokens, best)
            Decoder.decode_loop d lattice lm_scale wi_penalty rest
              acc.1 acc.2

/-- Source `decode`: resolve the effective scale and penalty, seed the initial
node with a finalized `<s>` token and its `best_logprob`, then run the
node loop over the topologically sorted nodes. -/
def Decoder.decode {K : Type} [LinearOrderedCommRing K]
    (d : Decoder K) (lattice : Lattice K) (initial_state : RecState) :
    Except PyErr (List (Token K)) :=
  let lm_scale := resolve_lm_scale d.lm_scale lattice.lm_scale
  let wi_penalty := resolve_wi_penalty d.wi_penalty lattice.wi_penalty
  let initial_token : Token K :=
    Token.init [Word.id d.vocab.sos_id] initial_state 0 0 0
  let initial_token :=
    (initial_token.recompute_hash d.hashFn
      d.recombination_order).recompute_total d.interpolate_linear
      d.nnlm_weight lm_scale wi_penalty d.linear_interpolation
  let tokens : Nat → List (Token K) :=
    fun i => if i = lattice.initial_node_id then [initial_token] else []
  let best : Nat → Option K :=
    fun i =>
      if i = lattice.initial_node_id then initial_token.total_logprob
      else none
  Decoder.decode_loop d lattice lm_scale wi_penalty lattice.sorted_nodes
    tokens best

/-- A fixed example token over `ℤ` used by concrete witnesses. -/
def tokW : Token ℤ :=
  ⟨[Word.id 0, Word.id 3], 0, 2, 3, 5, none, none, none⟩

/-- A concrete stand-in for the opaque linear interpolation routine. -/
def interpLinW : ℤ → ℤ → ℤ → ℤ :=
  fun a _ _ => a

/-- Python's `hash` modelled as the length of the hashed tuple; enough to
distinguish the empty tuple from a one-element tuple. -/
def lenHash : List Word → Int :=
  fun l => (l.length : Int)

/-- A one-word-history token over `ℤ` used by the C5 counterexample. -/
def tok0W : Token ℤ :=
  ⟨[Word.id 0], 0, 0, 0, 0, none, none, none⟩

/-- A small concrete vocabulary over which witnesses run: one real word
`a` with id 3, everything in the shortlist, `<s> = 1`, `</s> = 2`,
`<unk> = 0`. -/
def vocabW : Vocabulary :=
  ⟨fun w => if w = ['a'] then some 3 else none, fun _ => true, 1, 2, 0⟩

/-- A concrete decoder over `ℤ` with no pruning options set; the network
oracle always returns log probability `-1` and bumps the state handle. -/
def decW : Decoder ℤ where
  nnlm_weight := 1
  lm_scale := none
  wi_penalty := none
  unk_penalty := none
  unk_from_lattice := false
  linear_interpolation := false
  max_tokens_per_node := none
  beam := none
  recombination_order := none
  oos_logprobs := none
  vocab := vocabW
  hashFn := fun l => (l.length : Int)
  interpolate_linear := fun a _ _ => a
  net := fun s _ _ => (-1, s + 1)

/-- A one-node lattice (the initial node is also the final node) used to
exercise the successful path of `decode`. -/
def latW : Lattice ℤ :=
  ⟨0, 0, none, none, [⟨0, none, []⟩]⟩

/-- The token list `decode` returns on the witness lattice. -/
def decodeResW : List (Token ℤ) :=
  match decW.decode latW 0 with
  | .ok ts => ts
  | .error _ => []

/-- A finalized token with a low total log probability. -/
def tLowW : Token ℤ :=
  { tokW with recombination_hash := some 7, total_logprob := some (-5) }

/-- A finalized token with the same recombination hash as `tLowW` and a
higher total log probability. -/
def tHighW : Token ℤ :=
  { tokW with recombination_hash := some 7, total_logprob := some 9 }

/-- A two-token list in which both tokens share a recombination hash. -/
def tsPairW : List (Token ℤ) :=
  [tLowW, tHighW]

/-- The witness decoder with a hard cap on tokens per node. -/
def dCapW : Decoder ℤ :=
  { decW with max_tokens_per_node := some 5 }

/-- The witness decoder with the out-of-shortlist table enabled. -/
def dOosW : Decoder ℤ :=
  { decW with oos_logprobs := some (fun n => (n : ℤ)) }

/-- A node with no time stamp and no outgoing links. -/
def nodeW : Node ℤ :=
  ⟨0, none, []⟩

/-- A `best_logprob` table holding `1` at node `0`. -/
def best1W : Nat → Option ℤ :=
  fun i => if i = 0 then some 1 else none

/-- A link carrying the vocabulary word `a` into node `0`. -/
def linkW : Link ℤ :=
  ⟨['a'], some 2, some 3, 0⟩

/-- A link whose word is the structural marker `!N`. -/
def linkMW : Link ℤ :=
  ⟨['!', 'N'], some 2, some 3, 0⟩

/-- The single token `_propagate` produces from `tokW` on the
end-of-sentence transition. -/
def propOneW : Token ℤ :=
  decW.propagate_one none 1 0 tokW

/-- What `_prune` leaves of `tsPairW` under the capped decoder. -/
def pruneResW : List (Token ℤ) :=
  match dCapW.prune [] (fun _ => none) nodeW tsPairW with
  | .ok r => r
  | .error _ => []

end TheanoLM

namespace TheanoLM

/-- C1: the claim says the decoder's configured `wi_penalty` wins whenever
it is set. The code disagrees: with the decoder's penalty set to `-1` and
the lattice's to `-2`, the effective penalty is `-2`, and with the
lattice's unset it is `0`; the decoder's value never survives (missing
`elif` at latticedecoder.py line 333). The spec-modelled resolution
returns `-1` in both situations, as the claim states. -/
theorem C1_wi_penalty_resolution :
    resolve_wi_penalty (K := ℤ) (some (-1)) (some (-2)) = -2 ∧
    resolve_wi_penalty (K := ℤ) (some (-1)) none = 0 ∧
    resolve_wi_penalty_spec (K := ℤ) (some (-1)) (some (-2)) = -1 ∧
    resolve_wi_penalty_spec (K := ℤ) (some (-1)) none = -1 := by
  refine ⟨rfl, rfl, rfl, rfl⟩

/-- C2: `recompute_total` interpolates `nn_lm_logprob` with
`lat_lm_logprob` — in log-linear mode exactly
`w * nn + (1 - w) * lat` — stores the result in `lm_logprob`, and sets
`total_logprob = ac_logprob + lm_logprob * lm_scale +
wi_penalty * len(history)`; the total depends on no token field other
than `ac_logprob`, the two LM log probabilities and the history length. -/
theorem C2_recompute_total (K : Type) [LinearOrderedCommRing K]
    (interpolate_linear : K → K → K → K)
    (w lm_scale wi_penalty : K) (t : Token K) :
    ((t.recompute_total interpolate_linear w lm_scale wi_penalty
        false).lm_logprob
      = some (w * t.nn_lm_logprob + (1 - w) * t.lat_lm_logprob)) ∧
    (∀ linear : Bool, ∃ lm : K,
      (t.recompute_total interpolate_linear w lm_scale wi_penalty
          linear).lm_logprob = some lm ∧
      (t.recompute_total interpolate_linear w lm_scale wi_penalty
          linear).total_logprob
        = some (t.ac_logprob + lm * lm_scale +
            wi_penalty * (t.history.length : K))) ∧
    (∀ (linear : Bool) (t2 : Token K),
      t2.ac_logprob = t.ac_logprob →
      t2.nn_lm_logprob = t.nn_lm_logprob →
      t2.lat_lm_logprob = t.lat_lm_logprob →
      t2.history.length = t.history.length →
      (t2.recompute_total interpolate_linear w lm_scale wi_penalty
          linear).total_logprob
        = (t.recompute_total interpolate_linear w lm_scale wi_penalty
            linear).total_logprob) := by
  refine ⟨?_, ?_, ?_⟩
  · simp [Token.recompute_total, interpolate_loglinear]
  · intro linear
    cases linear <;>
      exact ⟨_, rfl, rfl⟩
  · intro linear t2 hac hnn hlat hlen
    cases linear <;>
      simp [Token.recompute_total, interpolate_loglinear, hac, hnn,
        hlat, hlen]

/-- Witness for C2 at a concrete token: the log-linear interpolation
evaluates to `2*5 + (1-2)*3` and the frame property applies reflexively. -/
theorem C2_recompute_total_witness :
    ((tokW.recompute_total interpLinW 2 3 4 false).lm_logprob
      = some (2 * 5 + (1 - 2) * 3)) ∧
    ((tokW.recompute_total interpLinW 2 3 4 true).total_logprob
      = (tokW.recompute_total interpLinW 2 3 4 true).total_logprob) :=
  ⟨(C2_recompute_total ℤ interpLinW 2 3 4 tokW).1,
   (C2_recompute_total ℤ interpLinW 2 3 4 tokW).2.2 true tokW
     rfl rfl rfl rfl⟩

/-- C5 as stated is false at order `0`: `recompute_hash(0)` hashes the
whole history (`history[-0:]` is the whole list in Python), not the empty
suffix of length `0` that the claim's "last n entries" prescribes. -/
theorem C5_recompute_hash_counterexample :
    ¬ ((tok0W.recompute_hash lenHash (some 0)).recombination_hash
        = some (lenHash (takeLast 0 tok0W.history))) := by
  decide

/-- C5 (amended): for every positive order `n`, `recompute_hash(n)` sets
the hash to the hash of the last `n` history entries, and
`recompute_hash(None)` hashes the entire history; at order `0` the code
hashes the entire history as well (Python's `history[-0:]` slice), not
the empty suffix. -/
theorem C5_recompute_hash (K : Type) [LinearOrderedCommRing K]
    (hashFn : List Word → Int) (t : Token K) :
    (∀ n : Nat, 0 < n →
      (t.recompute_hash hashFn (some n)).recombination_hash
        = some (hashFn (takeLast n t.history))) ∧
    ((t.recompute_hash hashFn none).recombination_hash
      = some (hashFn t.history)) ∧
    ((t.recompute_hash hashFn (some 0)).recombination_hash
      = some (hashFn t.history)) := by
  refine ⟨?_, rfl, ?_⟩
  · intro n hn
    simp [Token.recompute_hash, pyLastSlice, takeLast, Nat.pos_iff_ne_zero.mp hn]
  · simp [Token.recompute_hash, pyLastSlice]

/-- Witness for the amended C5 at order `2` on a concrete token. -/
theorem C5_recompute_hash_witness :
    (0 : Nat) < 2 ∧
    (tok0W.recompute_hash lenHash (some 2)).recombination_hash
      = some (lenHash (takeLast 2 tok0W.history)) :=
  ⟨by decide, (C5_recompute_hash ℤ lenHash tok0W).1 2 (by decide)⟩

/-- C3: beam pruning never removes the highest-scoring token. After
recombination and the descending sort, whatever the threshold — in
particular when the head's total log probability lies at or below it —
the token at index 0 survives `beam_prune`. -/
theorem C3_beam_keeps_best (K : Type) [LinearOrderedCommRing K]
    (threshold : K) (ts : List (Token K)) (t0 : Token K)
    (h : (sort_tokens_desc (recombine ts)).head? = some t0) :
    (beam_prune threshold
        (sort_tokens_desc (recombine ts))).head? = some t0 ∧
    t0 ∈ beam_prune threshold (sort_tokens_desc (recombine ts)) := by
  cases hl : sort_tokens_desc (recombine ts) with
  | nil => rw [hl] at h; cases h
  | cons a rest =>
    rw [hl] at h
    have ha : a = t0 := by simpa using h
    subst ha
    exact ⟨rfl, List.mem_cons_self _ _⟩

/-- Witness for C3: a single token whose total log probability `-5` lies
below the threshold `0`, yet survives at index 0. -/
theorem C3_beam_keeps_best_witness :
    Token.total tLowW ≤ (0 : ℤ) ∧
    (beam_prune (0 : ℤ)
        (sort_tokens_desc (recombine [tLowW]))).head? = some tLowW :=
  ⟨by decide, (C3_beam_keeps_best ℤ 0 [tLowW] tLowW (by decide)).1⟩

/-- C10: `_propagate` produces exactly one output token per input token,
in the same order (the output list is the pointwise image of the input
list), and every output token is finalized: its recombination hash,
interpolated LM log probability and total log probability are all set. -/
theorem C10_propagate_shape (K : Type) [LinearOrderedCommRing K]
    (d : Decoder K) (tokens : List (Token K)) (link : Option (Link K))
    (lm_scale wi_penalty : K) (best : Nat → Option K) :
    ((d.propagate tokens link lm_scale wi_penalty best).1
      = tokens.map (d.propagate_one link lm_scale wi_penalty)) ∧
    ((d.propagate tokens link lm_scale wi_penalty best).1.length
      = tokens.length) ∧
    (∀ t ∈ (d.propagate tokens link lm_scale wi_penalty best).1,
      t.recombination_hash.isSome ∧ t.lm_logprob.isSome ∧
        t.total_logprob.isSome) := by
  refine ⟨rfl, by simp [Decoder.propagate], ?_⟩
  intro t ht
  simp only [Decoder.propagate, List.mem_map] at ht
  obtain ⟨u, _, rfl⟩ := ht
  simp [Decoder.propagate_one, Token.recompute_total,
    Token.recompute_hash]

/-- Witness for C10: the end-of-sentence image of `tokW` is a member of
the propagated list and is finalized. -/
theorem C10_propagate_shape_witness :
    propOneW ∈ (decW.propagate [tokW] none 1 0 (fun _ => none)).1 ∧
    (propOneW.recombination_hash.isSome ∧ propOneW.lm_logprob.isSome ∧
      propOneW.total_logprob.isSome) :=
  ⟨by decide,
   (C10_propagate_shape ℤ decW [tokW] none 1 0 (fun _ => none)).2.2
     propOneW (by decide)⟩

/-- C8: on a marker link (word starting with `!`), `_propagate` only adds
the link's acoustic and LM scores (when present) before finalizing: the
output is the pointwise image of the input with history and
`nn_lm_logprob` unchanged, and the result does not depend on the network
oracle — no network evaluation occurs. -/
theorem C8_marker_link (K : Type) [LinearOrderedCommRing K]
    (d : Decoder K) (tokens : List (Token K)) (l : Link K)
    (lm_scale wi_penalty : K) (best : Nat → Option K)
    (h : starts_with_marker l.word = true) :
    ((d.propagate tokens (some l) lm_scale wi_penalty best).1
      = tokens.map (fun t =>
          ((Token.init t.history t.state
              (t.ac_logprob + l.ac_logprob.getD 0)
              (t.lat_lm_logprob + l.lm_logprob.getD 0)
              t.nn_lm_logprob).recompute_hash d.hashFn
            d.recombination_order).recompute_total d.interpolate_linear
            d.nnlm_weight lm_scale wi_penalty
            d.linear_interpolation)) ∧
    (∀ net2, Decoder.propagate { d with net := net2 } tokens (some l)
        lm_scale wi_penalty best
      = d.propagate tokens (some l) lm_scale wi_penalty best) := by
  have hone : ∀ (d2 : Decoder K), d2.hashFn = d.hashFn →
      d2.recombination_order = d.recombination_order →
      d2.interpolate_linear = d.interpolate_linear →
      d2.nnlm_weight = d.nnlm_weight →
      d2.linear_interpolation = d.linear_interpolation →
      ∀ t : Token K,
      d2.propagate_one (some l) lm_scale wi_penalty t
        = ((Token.init t.history t.state
              (t.ac_logprob + l.ac_logprob.getD 0)
              (t.lat_lm_logprob + l.lm_logprob.getD 0)
              t.nn_lm_logprob).recompute_hash d.hashFn
            d.recombination_order).recompute_total d.interpolate_linear
            d.nnlm_weight lm_scale wi_penalty d.linear_interpolation := by
    intro d2 h1 h2 h3 h4 h5 t
    cases hac : l.ac_logprob <;> cases hlm : l.lm_logprob <;>
      simp [Decoder.propagate_one, Token.copy, Token.init, h, hac, hlm,
        h1, h2, h3, h4, h5]
  constructor
  · exact List.map_congr_left fun t _ => hone d rfl rfl rfl rfl rfl t
  · intro net2
    have hmap : tokens.map
        (Decoder.propagate_one { d with net := net2 } (some l) lm_scale
          wi_penalty)
        = tokens.map (d.propagate_one (some l) lm_scale wi_penalty) := by
      refine List.map_congr_left fun t _ => ?_
      rw [hone { d with net := net2 } rfl rfl rfl rfl rfl t,
        hone d rfl rfl rfl rfl rfl t]
    simp [Decoder.propagate, hmap]

/-- Witness for C8: on the marker link `!N`, replacing the network oracle
does not change the propagation result. -/
theorem C8_marker_link_witness :
    Decoder.propagate { decW with net := fun s _ _ => (5, s) } [tokW]
        (some linkMW) 1 0 (fun _ => none)
      = decW.propagate [tokW] (some linkMW) 1 0 (fun _ => none) :=
  (C8_marker_link ℤ decW [tokW] linkMW 1 0 (fun _ => none)
    (by decide)).2 (fun s _ _ => (5, s))

/-- C7: `_handle_unk_logprob` returns, in order of the source's cases:
the network log probability plus the out-of-shortlist offset when the
table is enabled and the word is a vocabulary id; the override when the
table is enabled, the word is a literal, and an override is given; the
override when the table is disabled, the word is not in-shortlist, and an
override is given; and the raw network log probability in every other
case. -/
theorem C7_handle_unk_logprob (K : Type) [LinearOrderedCommRing K]
    (d : Decoder K) (word : Word) (network_logprob : K)
    (oov_logprob : Option K) :
    (∀ oos n, d.oos_logprobs = some oos → word = Word.id n →
      d.handle_unk_logprob word network_logprob oov_logprob
        = network_logprob + oos n) ∧
    (∀ oos s v, d.oos_logprobs = some oos → word = Word.oov s →
      oov_logprob = some v →
      d.handle_unk_logprob word network_logprob oov_logprob = v) ∧
    (∀ v, d.oos_logprobs = none → d.word_in_shortlist word = false →
      oov_logprob = some v →
      d.handle_unk_logprob word network_logprob oov_logprob = v) ∧
    (∀ oos s, d.oos_logprobs = some oos → word = Word.oov s →
      oov_logprob = none →
      d.handle_unk_logprob word network_logprob oov_logprob
        = network_logprob) ∧
    (d.oos_logprobs = none → d.word_in_shortlist word = true →
      d.handle_unk_logprob word network_logprob oov_logprob
        = network_logprob) ∧
    (d.oos_logprobs = none → oov_logprob = none →
      d.handle_unk_logprob word network_logprob oov_logprob
        = network_logprob) := by
  refine ⟨?_, ?_, ?_, ?_, ?_, ?_⟩
  · intro oos n hoos hw; subst hw
    simp [Decoder.handle_unk_logprob, hoos]
  · intro oos s v hoos hw hv; subst hw; subst hv
    simp [Decoder.handle_unk_logprob, hoos]
  · intro v hoos hsl hv; subst hv
    cases word <;>
      simp_all [Decoder.handle_unk_logprob, Decoder.word_in_shortlist]
  · intro oos s hoos hw hv; subst hw; subst hv
    simp [Decoder.handle_unk_logprob, hoos]
  · intro hoos hsl
    cases word <;> cases oov_logprob <;>
      simp_all [Decoder.handle_unk_logprob, Decoder.word_in_shortlist]
  · intro hoos hv; subst hv
    cases word <;>
      simp [Decoder.handle_unk_logprob, hoos]

/-- Witness for C7: redistribution adds the offset `4` for word id `4`,
and with redistribution disabled the override `-9` replaces the network
score of a literal word. -/
theorem C7_handle_unk_logprob_witness :
    dOosW.handle_unk_logprob (Word.id 4) 7 none = 7 + 4 ∧
    decW.handle_unk_logprob (Word.oov ['z']) 7 (some (-9)) = -9 :=
  ⟨(C7_handle_unk_logprob ℤ dOosW (Word.id 4) 7 none).1
      (fun n => (n : ℤ)) 4 rfl rfl,
   (C7_handle_unk_logprob ℤ decW (Word.oov ['z']) 7 (some (-9))).2.2.1
      (-9) rfl (by decide) rfl⟩

/-- Positions other than the updated node are untouched by the
`best_logprob` fold of `_propagate`. -/
theorem foldl_update_best_ne {K : Type} [LinearOrderedCommRing K]
    (nid j : Nat) (hj : j ≠ nid) (ts : List (Token K)) :
    ∀ b : Nat → Option K,
      (ts.foldl
        (fun b t => update_best_logprob b nid (Token.total t)) b) j
        = b j := by
  induction ts with
  | nil => intro b; rfl
  | cons t ts ih =>
    intro b
    rw [List.foldl_cons, ih]
    simp [update_best_logprob, hj]

/-- The conditional update of `_propagate` is a maximum. -/
theorem update_if_eq_max {K : Type} [LinearOrderedCommRing K]
    (c v : K) : (if v > c then v else c) = max c v := by
  rcases le_or_lt v c with hvc | hvc
  · rw [if_neg (not_lt.mpr hvc), max_eq_left hvc]
  · rw [if_pos hvc, max_eq_right hvc.le]

/-- At the updated node, the `best_logprob` fold of `_propagate` computes
the maximum of the previous value and all the new totals. -/
theorem foldl_update_best_at {K : Type} [LinearOrderedCommRing K]
    (nid : Nat) (ts : List (Token K)) :
    ∀ b : Nat → Option K,
      (ts.foldl
        (fun b t => update_best_logprob b nid (Token.total t)) b) nid
        = ((b nid).toList ++ ts.map Token.total).max? := by
  induction ts with
  | nil =>
    intro b
    cases hb : b nid <;> simp [hb, List.max?]
  | cons t ts ih =>
    intro b
    rw [List.foldl_cons, ih]
    cases hb : b nid with
    | none => simp [update_best_logprob, hb, List.max?]
    | some c =>
      have hmax : (if Token.total t > c then some (Token.total t)
          else some c) = some (max c (Token.total t)) := by
        rw [← update_if_eq_max c (Token.total t)]
        split <;> rfl
      simp [update_best_logprob, hb, hmax, List.max?, List.foldl_cons]

/-- A fold of `max` only moves up from its seed. -/
theorem le_foldl_max {K : Type} [LinearOrderedCommRing K]
    (l : List K) : ∀ v : K, v ≤ l.foldl max v := by
  induction l with
  | nil => intro v; exact le_refl v
  | cons x l ih =>
    intro v
    exact le_trans (le_max_left v x) (ih (max v x))

/-- C6: `best_logprob` is monotone under `_propagate`: every node whose
`best_logprob` is set keeps a value at least as large; with no link (end
of sentence) the table is unchanged; and with a link, only the link's end
node is updated, to the maximum of its current value and the new tokens'
total log probabilities. -/
theorem C6_best_logprob_update (K : Type) [LinearOrderedCommRing K]
    (d : Decoder K) (tokens : List (Token K)) (link : Option (Link K))
    (lm_scale wi_penalty : K) (best : Nat → Option K) :
    (∀ i v, best i = some v →
      ∃ v', (d.propagate tokens link lm_scale wi_penalty best).2 i
          = some v' ∧ v ≤ v') ∧
    ((d.propagate tokens none lm_scale wi_penalty best).2 = best) ∧
    (∀ l, link = some l →
      (∀ j, j ≠ l.end_node_id →
        (d.propagate tokens (some l) lm_scale wi_penalty best).2 j
          = best j) ∧
      ((d.propagate tokens (some l) lm_scale wi_penalty best).2
          l.end_node_id
        = ((best l.end_node_id).toList ++
            ((d.propagate tokens (some l) lm_scale wi_penalty
              best).1).map Token.total).max?)) := by
  refine ⟨?_, rfl, ?_⟩
  · intro i v hv
    cases link with
    | none => exact ⟨v, hv, le_refl v⟩
    | some l =>
      have h2 : (d.propagate tokens (some l) lm_scale wi_penalty
          best).2
          = (tokens.map
              (d.propagate_one (some l) lm_scale wi_penalty)).foldl
            (fun b t => update_best_logprob b l.end_node_id
              (Token.total t)) best := rfl
      by_cases hi : i = l.end_node_id
      · subst hi
        rw [h2, foldl_update_best_at, hv]
        refine ⟨((tokens.map
            (d.propagate_one (some l) lm_scale
              wi_penalty)).map Token.total).foldl max v,
          by simp [List.max?], le_foldl_max _ v⟩
      · rw [h2, foldl_update_best_ne _ _ hi]
        exact ⟨v, hv, le_refl v⟩
  · intro l hl
    subst hl
    have h2 : (d.propagate tokens (some l) lm_scale wi_penalty best).2
        = (tokens.map
            (d.propagate_one (some l) lm_scale wi_penalty)).foldl
          (fun b t => update_best_logprob b l.end_node_id
            (Token.total t)) best := rfl
    refine ⟨fun j hj => by rw [h2, foldl_update_best_ne _ _ hj], ?_⟩
    rw [h2, foldl_update_best_at]
    rfl

/-- Witness for C6: node `0` holds `1` before propagating over a link
into it, and still holds a value at least `1` afterwards. -/
theorem C6_best_logprob_update_witness :
    ∃ v', (decW.propagate [tokW] (some linkW) 1 0 best1W).2 0
        = some v' ∧ (1 : ℤ) ≤ v' :=
  (C6_best_logprob_update ℤ decW [tokW] (some linkW) 1 0 best1W).1 0 1
    (by decide)

/-- Replacing a dict entry keeps its key. -/
theorem replace_entry_fst {K : Type} [LinearOrderedCommRing K]
    (t : Token K) (p : Option Int × Token K) :
    (replace_entry t p).1 = p.1 := by
  unfold replace_entry
  split
  · split <;> rfl
  · rfl

/-- Replacing a dict entry never lowers its total log probability. -/
theorem replace_entry_total_le {K : Type} [LinearOrderedCommRing K]
    (t : Token K) (p : Option Int × Token K) :
    Token.total p.2 ≤ Token.total (replace_entry t p).2 := by
  unfold replace_entry
  split
  · split
    · exact le_of_lt ‹_›
    · exact le_refl _
  · exact le_refl _

/-- Replacing a dict entry preserves the key-is-hash invariant. -/
theorem replace_entry_key {K : Type} [LinearOrderedCommRing K]
    (t : Token K) (p : Option Int × Token K)
    (hp : p.1 = p.2.recombination_hash) :
    (replace_entry t p).1 = (replace_entry t p).2.recombination_hash := by
  unfold replace_entry
  split
  · split
    · simpa using ‹p.1 = t.recombination_hash›
    · exact hp
  · exact hp

/-- After updating the entry matching a token's hash, the entry's value
scores at least as high as the token. -/
theorem replace_entry_dom {K : Type} [LinearOrderedCommRing K]
    (t : Token K) (p : Option Int × Token K)
    (h1 : p.1 = t.recombination_hash) :
    Token.total t ≤ Token.total (replace_entry t p).2 := by
  unfold replace_entry
  rw [if_pos h1]
  split
  · exact le_refl _
  · exact not_lt.mp ‹_›

/-- One dict update preserves the recombination-dict invariant. -/
theorem upsert_token_good {K : Type} [LinearOrderedCommRing K]
    (m : List (Option Int × Token K)) (t : Token K)
    (hm : good_map m) : good_map (upsert_token m t) := by
  obtain ⟨hpw, hkey⟩ := hm
  by_cases hany : (m.any fun p => p.1 == t.recombination_hash) = true
  · rw [upsert_token, if_pos hany]
    constructor
    · rw [List.pairwise_map]
      refine hpw.imp ?_
      intro p q hne
      rw [replace_entry_fst, replace_entry_fst]
      exact hne
    · intro p hp
      rw [List.mem_map] at hp
      obtain ⟨q, hq, rfl⟩ := hp
      exact replace_entry_key t q (hkey q hq)
  · rw [upsert_token, if_neg hany]
    have hnotin : ∀ p ∈ m, p.1 ≠ t.recombination_hash := by
      intro p hp heq
      exact hany (List.any_eq_true.mpr ⟨p, hp, by simpa using heq⟩)
    constructor
    · rw [List.pairwise_append]
      refine ⟨hpw, List.pairwise_singleton _ _, ?_⟩
      intro p hp q hq
      rw [List.mem_singleton] at hq
      subst hq
      exact hnotin p hp
    · intro p hp
      rw [List.mem_append] at hp
      rcases hp with hp | hp
      · exact hkey p hp
      · rw [List.mem_singleton] at hp
        subst hp
        rfl

/-- Every dict entry survives an update with its key intact and a total
log probability at least as high. -/
theorem upsert_token_mono {K : Type} [LinearOrderedCommRing K]
    (m : List (Option Int × Token K)) (t : Token K) :
    ∀ p ∈ m, ∃ q ∈ upsert_token m t,
      q.1 = p.1 ∧ Token.total p.2 ≤ Token.total q.2 := by
  intro p hp
  by_cases hany : (m.any fun p => p.1 == t.recombination_hash) = true
  · refine ⟨replace_entry t p, ?_, replace_entry_fst t p,
      replace_entry_total_le t p⟩
    rw [upsert_token, if_pos hany]
    exact List.mem_map_of_mem _ hp
  · refine ⟨p, ?_, rfl, le_refl _⟩
    rw [upsert_token, if_neg hany]
    exact List.mem_append_left _ hp

/-- After inserting a token, some entry carries its hash and dominates
its total log probability. -/
theorem upsert_token_covers {K : Type} [LinearOrderedCommRing K]
    (m : List (Option Int × Token K)) (t : Token K) :
    ∃ q ∈ upsert_token m t,
      q.1 = t.recombination_hash ∧
      Token.total t ≤ Token.total q.2 := by
  by_cases hany : (m.any fun p => p.1 == t.recombination_hash) = true
  · obtain ⟨p, hp, hpeq⟩ := List.any_eq_true.mp hany
    have hpeq' : p.1 = t.recombination_hash := by simpa using hpeq
    refine ⟨replace_entry t p, ?_, ?_, replace_entry_dom t p hpeq'⟩
    · rw [upsert_token, if_pos hany]
      exact List.mem_map_of_mem _ hp
    · rw [replace_entry_fst]
      exact hpeq'
  · refine ⟨(t.recombination_hash, t), ?_, rfl, le_refl _⟩
    rw [upsert_token, if_neg hany]
    exact List.mem_append_right _ (List.mem_singleton_self _)

/-- Folding the token list into the dict preserves the invariant. -/
theorem foldl_upsert_good {K : Type} [LinearOrderedCommRing K]
    (ts : List (Token K)) :
    ∀ m, good_map m → good_map (ts.foldl upsert_token m) := by
  induction ts with
  | nil => intro m hm; exact hm
  | cons t ts ih =>
    intro m hm
    exact ih _ (upsert_token_good m t hm)

/-- Folding more tokens into the dict keeps every existing key with a
value at least as high. -/
theorem foldl_upsert_mono {K : Type} [LinearOrderedCommRing K]
    (ts : List (Token K)) :
    ∀ (m : List (Option Int × Token K)), ∀ p ∈ m,
      ∃ q ∈ ts.foldl upsert_token m,
        q.1 = p.1 ∧ Token.total p.2 ≤ Token.total q.2 := by
  induction ts with
  | nil => intro m p hp; exact ⟨p, hp, rfl, le_refl _⟩
  | cons t ts ih =>
    intro m p hp
    obtain ⟨q, hq, hq1, hq2⟩ := upsert_token_mono m t p hp
    obtain ⟨r, hr, hr1, hr2⟩ := ih (upsert_token m t) q hq
    exact ⟨r, hr, hr1.trans hq1, hq2.trans hr2⟩

/-- Every folded-in token is dominated by the entry carrying its hash. -/
theorem foldl_upsert_covers {K : Type} [LinearOrderedCommRing K]
    (ts : List (Token K)) :
    ∀ (m : List (Option Int × Token K)), ∀ u ∈ ts,
      ∃ q ∈ ts.foldl upsert_token m,
        q.1 = u.recombination_hash ∧
        Token.total u ≤ Token.total q.2 := by
  induction ts with
  | nil => intro m u hu; cases hu
  | cons t ts ih =>
    intro m u hu
    rcases List.mem_cons.mp hu with rfl | hu
    · obtain ⟨q, hq, hq1, hq2⟩ := upsert_token_covers m u
      obtain ⟨r, hr, hr1, hr2⟩ := foldl_upsert_mono ts
        (upsert_token m u) q hq
      exact ⟨r, hr, hr1.trans hq1, hq2.trans hr2⟩
    · exact ih (upsert_token m t) u hu

/-- In a list with pairwise distinct keys, equal keys force equal
entries. -/
theorem pairwise_key_inj {K : Type} [LinearOrderedCommRing K]
    {m : List (Option Int × Token K)}
    (hpw : m.Pairwise (fun p q => p.1 ≠ q.1)) :
    ∀ p ∈ m, ∀ q ∈ m, p.1 = q.1 → p = q := by
  induction m with
  | nil => intro p hp; cases hp
  | cons a m ih =>
    rw [List.pairwise_cons] at hpw
    intro p hp q hq heq
    rcases List.mem_cons.mp hp with hp1 | hp1 <;>
      rcases List.mem_cons.mp hq with hq1 | hq1
    · rw [hp1, hq1]
    · rw [hp1] at heq
      exact absurd heq (hpw.1 q hq1)
    · rw [hq1] at heq
      exact absurd heq.symm (hpw.1 p hp1)
    · exact ih hpw.2 p hp1 q hq1 heq

/-- The recombined list carries pairwise distinct recombination hashes. -/
theorem recombine_pairwise_hash {K : Type} [LinearOrderedCommRing K]
    (ts : List (Token K)) :
    (recombine ts).Pairwise
      (fun a b => a.recombination_hash ≠ b.recombination_hash) := by
  have hg := foldl_upsert_good ts []
    ⟨List.Pairwise.nil, by intro p hp; cases hp⟩
  unfold recombine
  rw [List.pairwise_map]
  refine List.Pairwise.imp_of_mem ?_ hg.1
  intro p q hp hq hne
  rw [← hg.2 p hp, ← hg.2 q hq]
  exact hne

/-- Every recombined token dominates every input token that shares its
recombination hash. -/
theorem recombine_dominates {K : Type} [LinearOrderedCommRing K]
    (ts : List (Token K)) :
    ∀ t ∈ recombine ts, ∀ u ∈ ts,
      u.recombination_hash = t.recombination_hash →
      Token.total u ≤ Token.total t := by
  intro t ht u hu hhash
  have hg := foldl_upsert_good ts []
    ⟨List.Pairwise.nil, by intro p hp; cases hp⟩
  unfold recombine at ht
  rw [List.mem_map] at ht
  obtain ⟨p, hp, rfl⟩ := ht
  obtain ⟨q, hq, hq1, hq2⟩ := foldl_upsert_covers ts [] u hu
  have hqp : q = p := pairwise_key_inj hg.1 q hq p hp
    (by rw [hq1, hhash, ← hg.2 p hp])
  exact hqp ▸ hq2

/-- The beam-pruning pass yields a sublist of its input. -/
theorem beam_prune_sublist {K : Type} [LinearOrderedCommRing K]
    (thr : K) (l : List (Token K)) :
    (beam_prune thr l).Sublist l := by
  cases l with
  | nil => exact List.Sublist.refl _
  | cons a rest =>
    refine List.Sublist.cons₂ a ?_
    have h1 := List.dropWhile_sublist
      (l := rest.reverse) (fun t => decide (Token.total t ≤ thr))
    have h2 := h1.reverse
    rwa [List.reverse_reverse] at h2

/-- The hard cap yields a sublist of its input. -/
theorem truncate_tokens_sublist {K : Type}
    (mt : Option Nat) (l : List (Token K)) :
    (truncate_tokens mt l).Sublist l := by
  cases mt with
  | none => exact List.Sublist.refl _
  | some m => exact List.take_sublist m l

/-- A successful `_prune` produces the capped image of a sublist of the
sorted recombined token list. -/
theorem prune_ok_cases {K : Type} [LinearOrderedCommRing K]
    (d : Decoder K) (sorted_nodes : List (Node K))
    (best : Nat → Option K) (node : Node K)
    (ts result : List (Token K))
    (h : d.prune sorted_nodes best node ts = .ok result) :
    ∃ mid : List (Token K),
      mid.Sublist (sort_tokens_desc (recombine ts)) ∧
      result = truncate_tokens d.max_tokens_per_node mid := by
  simp only [Decoder.prune] at h
  split at h
  · injection h with h'
    exact ⟨sort_tokens_desc (recombine ts), List.Sublist.refl _,
      h'.symm⟩
  · split at h
    · cases h
    · split at h
      · cases h
      · injection h with h'
        exact ⟨beam_prune _ (sort_tokens_desc (recombine ts)),
          beam_prune_sublist _ _, h'.symm⟩

/-- C4: after `_prune`, no two surviving tokens share a recombination
hash; each surviving token dominates every input token sharing its hash;
the surviving list is sorted by total log probability in descending
order; and when a hard cap is configured the list never exceeds it. -/
theorem C4_prune_invariants (K : Type) [LinearOrderedCommRing K]
    (d : Decoder K) (sorted_nodes : List (Node K))
    (best : Nat → Option K) (node : Node K)
    (ts result : List (Token K))
    (h : d.prune sorted_nodes best node ts = .ok result) :
    result.Pairwise
      (fun a b => a.recombination_hash ≠ b.recombination_hash) ∧
    result.Pairwise (fun a b => Token.total b ≤ Token.total a) ∧
    (∀ m, d.max_tokens_per_node = some m → result.length ≤ m) ∧
    (∀ t ∈ result, ∀ u ∈ ts,
      u.recombination_hash = t.recombination_hash →
      Token.total u ≤ Token.total t) := by
  obtain ⟨mid, hmid, rfl⟩ :=
    prune_ok_cases d sorted_nodes best node ts result h
  have hsub : (truncate_tokens d.max_tokens_per_node mid).Sublist
      (sort_tokens_desc (recombine ts)) :=
    (truncate_tokens_sublist _ _).trans hmid
  have hperm : (sort_tokens_desc (recombine ts)).Perm (recombine ts) :=
    List.perm_insertionSort _ _
  refine ⟨?_, ?_, ?_, ?_⟩
  · exact List.Pairwise.sublist hsub
      ((hperm.pairwise_iff (fun hne => Ne.symm hne)).mpr
        (recombine_pairwise_hash ts))
  · exact List.Pairwise.sublist hsub
      (List.sorted_insertionSort tokenGE (recombine ts))
  · intro m hm
    simp [truncate_tokens, hm, List.length_take]
  · intro t ht u hu hh
    exact recombine_dominates ts t
      (hperm.subset (hsub.subset ht)) u hu hh

/-- Witness for C4: pruning two equal-hash tokens under a cap of `5`
leaves a list with distinct hashes and at most `5` tokens. -/
theorem C4_prune_invariants_witness :
    pruneResW.Pairwise
      (fun a b => a.recombination_hash ≠ b.recombination_hash) ∧
    pruneResW.length ≤ 5 :=
  ⟨(C4_prune_invariants ℤ dCapW [] (fun _ => none) nodeW tsPairW
      pruneResW (by decide)).1,
   (C4_prune_invariants ℤ dCapW [] (fun _ => none) nodeW tsPairW
      pruneResW (by decide)).2.2.1 5 rfl⟩

/-- A successful run of the node loop reaches a node carrying the final
node's id, and returns the end-of-sentence propagation of some pruned
token list, sorted by descending total log probability. -/
theorem decode_loop_ok {K : Type} [LinearOrderedCommRing K]
    (d : Decoder K) (lat : Lattice K) (lm_scale wi_penalty : K) :
    ∀ (nodes : List (Node K)) (tokens : Nat → List (Token K))
      (best : Nat → Option K) (ts : List (Token K)),
      Decoder.decode_loop d lat lm_scale wi_penalty nodes tokens best
        = .ok ts →
      (∃ node ∈ nodes, node.id = lat.final_node_id) ∧
      ts.Pairwise (fun a b => Token.total b ≤ Token.total a) ∧
      ∃ (pruned : List (Token K)) (b : Nat → Option K),
        ts = sort_tokens_desc
          ((d.propagate pruned none lm_scale wi_penalty b).1) := by
  intro nodes
  induction nodes with
  | nil =>
    intro tokens best ts h
    exact absurd h (by simp [Decoder.decode_loop])
  | cons node rest ih =>
    intro tokens best ts h
    simp only [Decoder.decode_loop] at h
    split at h
    · cases h
    · split at h
      · cases h
      · rename_i pruned heq
        split at h
        · cases h
        · split at h
          case isTrue hfin =>
            injection h with h'
            refine ⟨⟨node, List.mem_cons_self _ _, hfin⟩, ?_,
              pruned, best, h'.symm⟩
            rw [← h']
            exact List.sorted_insertionSort tokenGE _
          case isFalse hfin =>
            obtain ⟨⟨n, hn, hid⟩, hs, hex⟩ := ih _ _ _ h
            exact ⟨⟨n, List.mem_cons_of_mem _ hn, hid⟩, hs, hex⟩

/-- C9: `decode` succeeds only by processing the lattice's final node,
returning its end-of-sentence tokens sorted by descending total log
probability; a node loop that runs out of nodes raises the structural
`InputError` saying the final node could not be reached, and when no
sorted node carries the final node's id, `decode` cannot succeed. -/
theorem C9_decode_success_path (K : Type) [LinearOrderedCommRing K]
    (d : Decoder K) (lat : Lattice K) (initial_state : RecState) :
    (∀ ts, d.decode lat initial_state = .ok ts →
      (∃ node ∈ lat.sorted_nodes, node.id = lat.final_node_id) ∧
      ts.Pairwise (fun a b => Token.total b ≤ Token.total a) ∧
      ∃ (pruned : List (Token K)) (b : Nat → Option K),
        ts = sort_tokens_desc
          ((d.propagate pruned none
            (resolve_lm_scale d.lm_scale lat.lm_scale)
            (resolve_wi_penalty d.wi_penalty lat.wi_penalty) b).1)) ∧
    (∀ (tokens : Nat → List (Token K)) (best : Nat → Option K),
      Decoder.decode_loop d lat
        (resolve_lm_scale d.lm_scale lat.lm_scale)
        (resolve_wi_penalty d.wi_penalty lat.wi_penalty) [] tokens best
        = .error (.inputError final_node_error)) ∧
    ((∀ node ∈ lat.sorted_nodes, node.id ≠ lat.final_node_id) →
      ∀ ts, d.decode lat initial_state ≠ .ok ts) := by
  refine ⟨?_, fun tokens best => rfl, ?_⟩
  · intro ts h
    exact decode_loop_ok d lat _ _ lat.sorted_nodes _ _ ts h
  · intro hnone ts h
    obtain ⟨⟨n, hn, hid⟩, -, -⟩ :=
      decode_loop_ok d lat _ _ lat.sorted_nodes _ _ ts h
    exact hnone n hn hid

/-- Witness for C9: decoding the one-node witness lattice succeeds, the
final node is among the sorted nodes, and the returned tokens are sorted
in descending order. -/
theorem C9_decode_success_path_witness :
    (∃ node ∈ latW.sorted_nodes, node.id = latW.final_node_id) ∧
    decodeResW.Pairwise (fun a b => Token.total b ≤ Token.total a) := by
  have h := (C9_decode_success_path ℤ decW latW 0).1 decodeResW
    (by decide)
  exact ⟨h.1, h.2.1⟩

end TheanoLM
